import Mathlib

/-!
Verification of the ensemble sampling controller and partisan metrics engine of
the MCMC redistricting project (`voting_district_metrics.py` and
`helpers/analyze_ensemble_2024.py`).

Numeric model: the Python code computes over IEEE floats; all vote totals and
metric values are embedded as rationals (`ℚ`), which matches the float code
exactly on the additions, comparisons, divisions and `math.floor` performed
here whenever the values involved are exactly representable.  Absent or
non-numeric node attributes are modelled as `Option ℚ` with `none` coerced to
zero, exactly as the analyzer's `attr.get(key, 0.0) or 0.0` plus
`try: float(...) except: 0.0` does.  A metric that returns the float NaN
sentinel is modelled as an `Option ℚ` result of `none`.
-/

/-- Value of a node attribute as the analyzer reads it: a missing or
non-numeric attribute (`none`) is coerced to `0`, mirroring
`attr.get(key, 0.0) or 0.0` followed by the `float(...)` try/except fallback
in `aggregate_votes_by_district`. -/
def attrVal (a : Option ℚ) : ℚ := a.getD 0

/-- Precinct adjacency graph: node identifiers, an edge list (undirected:
adjacency is membership of either orientation), and the two per-node vote
attributes (Democratic and Republican columns). -/
structure PGraph where
  nodes : List ℕ
  edges : List (ℕ × ℕ)
  dem : ℕ → Option ℚ
  rep : ℕ → Option ℚ

/-- Entries of an assignment (node ↦ district pairs) whose node is present in
the graph; models the `if node_id not in graph.nodes: continue` guard at the
top of the `aggregate_votes_by_district` loop. -/
def assignedPresent (g : PGraph) (asg : List (ℕ × ℕ)) : List (ℕ × ℕ) :=
  asg.filter (fun p => decide (p.1 ∈ g.nodes))

/-- District keys of the analyzer's `dem_by_dist`/`rep_by_dist` defaultdicts:
the districts of the assignment entries whose node exists in the graph. -/
def aggKeys (g : PGraph) (asg : List (ℕ × ℕ)) : List ℕ :=
  ((assignedPresent g asg).map Prod.snd).dedup

/-- Democratic tally of district `d` as accumulated by
`aggregate_votes_by_district`: sum of the Democratic attribute over the
assignment entries mapping a graph node to `d`. -/
def dem_by_dist (g : PGraph) (asg : List (ℕ × ℕ)) (d : ℕ) : ℚ :=
  (((assignedPresent g asg).filter (fun p => decide (p.2 = d))).map
    (fun p => attrVal (g.dem p.1))).sum

/-- Republican tally of district `d` as accumulated by
`aggregate_votes_by_district`. -/
def rep_by_dist (g : PGraph) (asg : List (ℕ × ℕ)) (d : ℕ) : ℚ :=
  (((assignedPresent g asg).filter (fun p => decide (p.2 = d))).map
    (fun p => attrVal (g.rep p.1))).sum

/-- The analyzer's `aggregate_votes_by_district`, packaged as the list of
per-district `(dem, rep)` tally pairs over the defaultdict key set (the
`two_party_by_dist` dict is the pointwise sum of the two and is not kept
separately here). -/
def aggregate_votes_by_district (g : PGraph) (asg : List (ℕ × ℕ)) : List (ℚ × ℚ) :=
  (aggKeys g asg).map (fun d => (dem_by_dist g asg d, rep_by_dist g asg d))

/-- Accumulator of the `compute_efficiency_gap` loop over the per-district
tally pairs: `(wasted_dem_total, wasted_rep_total, total_two_party)`.  A
district with non-positive two-party total is skipped; otherwise
`threshold = floor(total/2) + 1`, the strict winner wastes its votes minus
the threshold, the loser wastes its entire total, an exact tie wastes half of
each side's total, and each contribution is clamped below at zero
(`max(..., 0.0)` in the source). -/
def egAccum : List (ℚ × ℚ) → ℚ × ℚ × ℚ
  | [] => (0, 0, 0)
  | (dem, rep) :: rest =>
    let acc := egAccum rest
    let total := dem + rep
    if total ≤ 0 then acc
    else
      let threshold : ℚ := ((⌊total / 2⌋ : ℤ) : ℚ) + 1
      let demWasted : ℚ :=
        if rep < dem then dem - threshold
        else if dem < rep then dem
        else dem / 2
      let repWasted : ℚ :=
        if rep < dem then rep
        else if dem < rep then rep - threshold
        else rep / 2
      (acc.1 + max demWasted 0, acc.2.1 + max repWasted 0, acc.2.2 + total)

/-- The analyzer's `compute_efficiency_gap`: `none` models the `float('nan')`
returned when the statewide two-party total is zero. -/
def compute_efficiency_gap (tallies : List (ℚ × ℚ)) : Option ℚ :=
  let acc := egAccum tallies
  if acc.2.2 = 0 then none else some ((acc.1 - acc.2.1) / acc.2.2)

/-- Districts with positive two-party total — the qualifying districts of the
spec's metric formulas. -/
def qualifying (tallies : List (ℚ × ℚ)) : List (ℚ × ℚ) :=
  tallies.filter (fun t => decide (0 < t.1 + t.2))

/-- Statewide two-party total over the qualifying districts. -/
def statewideTwoParty (tallies : List (ℚ × ℚ)) : ℚ :=
  ((qualifying tallies).map (fun t => t.1 + t.2)).sum

/-- Per-district wasted votes exactly as claim C5 (and spec §4.3) words it:
`threshold = floor(total/2) + 1`, the winner's wasted votes are its votes
minus the threshold, the loser's wasted votes are its entire total, and on
an exact tie each side wastes half its total.  No clamping. -/
def claimWasted (t : ℚ × ℚ) : ℚ × ℚ :=
  let total := t.1 + t.2
  let threshold : ℚ := ((⌊total / 2⌋ : ℤ) : ℚ) + 1
  if t.2 < t.1 then (t.1 - threshold, t.2)
  else if t.1 < t.2 then (t.1, t.2 - threshold)
  else (t.1 / 2, t.2 / 2)

/-- Efficiency gap exactly as claim C5 words the spec formula: sum the
unclamped wasted votes of each party over the qualifying districts and divide
the difference by the statewide two-party total; NaN (`none`) if that total
is zero. -/
def claim_efficiency_gap (tallies : List (ℚ × ℚ)) : Option ℚ :=
  if statewideTwoParty tallies = 0 then none
  else some
    ((((qualifying tallies).map (fun t => (claimWasted t).1)).sum -
      ((qualifying tallies).map (fun t => (claimWasted t).2)).sum) /
      statewideTwoParty tallies)

/-- Per-district wasted votes amended the minimal way the code forces: as in
`claimWasted` but with every contribution clamped below at zero (the source
accumulates `max(dem_wasted, 0.0)` and `max(rep_wasted, 0.0)`). -/
def amendedWasted (t : ℚ × ℚ) : ℚ × ℚ :=
  (max (claimWasted t).1 0, max (claimWasted t).2 0)

/-- Efficiency gap per the amended claim: the claim formula with the wasted
votes clamped below at zero. -/
def amended_efficiency_gap (tallies : List (ℚ × ℚ)) : Option ℚ :=
  if statewideTwoParty tallies = 0 then none
  else some
    ((((qualifying tallies).map (fun t => (amendedWasted t).1)).sum -
      ((qualifying tallies).map (fun t => (amendedWasted t).2)).sum) /
      statewideTwoParty tallies)

/-- Modelled from the spec: the generation-time efficiency gap.  At generation
time the controller calls `metrics.efficiency_gap(partition["ELECT"])` from
the external gerrychain library, which is not part of this repository; the
spec states that the five fairness-metric formulas of §4.3 are "applied
identically at generation time and at analysis time", so the generation-time
computation is modelled as the spec's §4.3 efficiency-gap formula
(`claim_efficiency_gap`). -/
def generation_efficiency_gap (tallies : List (ℚ × ℚ)) : Option ℚ :=
  claim_efficiency_gap tallies

/-- Generation-time GOP seat tally: `seats_gop_by_tally` in the controller,
`sum(int(R[d] > D[d]) for d in partition.parts)` over the per-district tally
pairs. -/
def seats_gop_by_tally (tallies : List (ℚ × ℚ)) : ℕ :=
  (tallies.map (fun t => if t.1 < t.2 then 1 else 0)).sum

/-- The analyzer's inline seat loop in `main`: `(dem_seats, gop_seats, ties)`
counted over the per-district tally pairs. -/
def analysisSeatCounts : List (ℚ × ℚ) → ℕ × ℕ × ℕ
  | [] => (0, 0, 0)
  | (dem, rep) :: rest =>
    let acc := analysisSeatCounts rest
    if rep < dem then (acc.1 + 1, acc.2.1, acc.2.2)
    else if dem < rep then (acc.1, acc.2.1 + 1, acc.2.2)
    else (acc.1, acc.2.1, acc.2.2 + 1)

/-- District keys of the generation-time partition: every district named by
the assignment (`partition.parts` covers all assigned labels). -/
def genKeys (asg : List (ℕ × ℕ)) : List ℕ := (asg.map Prod.snd).dedup

/-- Modelled from the spec: the generation-time per-district tallies.  The
controller reads them from gerrychain `Tally` updaters (external library, not
in this repository); the spec's DistrictTally is "aggregated (partyA_total,
partyB_total, ...) summed over the district's member nodes", i.e. the sum of
the vote attributes over the nodes the assignment maps to the district. -/
def genTally (g : PGraph) (asg : List (ℕ × ℕ)) (d : ℕ) : ℚ × ℚ :=
  (((asg.filter (fun p => decide (p.2 = d))).map (fun p => attrVal (g.dem p.1))).sum,
   ((asg.filter (fun p => decide (p.2 = d))).map (fun p => attrVal (g.rep p.1))).sum)

/-- Generation-time tally list over the partition's district keys. -/
def genTallies (g : PGraph) (asg : List (ℕ × ℕ)) : List (ℚ × ℚ) :=
  (genKeys asg).map (genTally g asg)

/-- The analyzer's `compute_partisan_bias` over the per-district tally pairs:
NaN (`none`) when there is no qualifying district or the combined statewide
two-party total over qualifying districts is zero; otherwise shift every
qualifying district's Democratic share by `0.5 - statewide share`, clamp into
`[0, 1]`, and return the fraction of shifted shares strictly above `0.5`
minus `0.5`. -/
def compute_partisan_bias (tallies : List (ℚ × ℚ)) : Option ℚ :=
  let qual := qualifying tallies
  let shares := qual.map (fun t => t.1 / (t.1 + t.2))
  let totalDem := (qual.map Prod.fst).sum
  let totalRep := (qual.map Prod.snd).sum
  if shares = [] ∨ totalDem + totalRep = 0 then none
  else
    let shift := 1 / 2 - totalDem / (totalDem + totalRep)
    let swung := shares.map (fun s => min (max (s + shift) 0) 1)
    let demSeats := (swung.filter (fun s => decide ((1 : ℚ) / 2 < s))).length
    some ((demSeats : ℚ) / (swung.length : ℚ) - 1 / 2)


/-- Cadence parameters of a `stream_plans_ndjson` run. -/
structure Cadence where
  samples : ℕ
  steps_between : ℕ
  burn_in : ℕ
  thin : ℕ
deriving DecidableEq

/-- Iteration ceiling passed to the MarkovChain:
`total_steps=(samples + burn_in) * (steps_between + 1) * thin + 100`. -/
def total_steps (c : Cadence) : ℕ :=
  (c.samples + c.burn_in) * (c.steps_between + 1) * c.thin + 100

/-- Observable outcome of the `for step, state in enumerate(chain)` loop of
`stream_plans_ndjson`: the records written, the number of loop iterations
executed, and whether a `ZeroDivisionError` was raised (Python's
`(...) % thin` with `thin == 0`; the loop body reaches that expression only
on a post-burn-in candidate-kept step). -/
structure LoopOut (α : Type) where
  records : List α
  iters : ℕ
  zeroDivError : Bool
deriving DecidableEq

/-- The record/keep loop of `stream_plans_ndjson` over the sequence of chain
states, with the source's three counters: `step` (the enumerate index),
`saved_states_seen` (candidate-kept steps so far) and `saved` (records
written so far).  A step is skipped unless `step % (steps_between+1) ==
steps_between`; the first `burn_in` candidate-kept steps are skipped; of the
rest, those with `(saved_states_seen - burn_in - 1) % thin != 0` are skipped;
otherwise the state is written out and the loop breaks once
`saved >= samples`. -/
def chainLoop (c : Cadence) {α : Type} : List α → ℕ → ℕ → ℕ → LoopOut α
  | [], _, _, _ => ⟨[], 0, false⟩
  | s :: rest, step, seen, saved =>
    if step % (c.steps_between + 1) ≠ c.steps_between then
      let r := chainLoop c rest (step + 1) seen saved
      ⟨r.records, r.iters + 1, r.zeroDivError⟩
    else
      let seen' := seen + 1
      if seen' ≤ c.burn_in then
        let r := chainLoop c rest (step + 1) seen' saved
        ⟨r.records, r.iters + 1, r.zeroDivError⟩
      else if c.thin = 0 then ⟨[], 1, true⟩
      else if (seen' - c.burn_in - 1) % c.thin ≠ 0 then
        let r := chainLoop c rest (step + 1) seen' saved
        ⟨r.records, r.iters + 1, r.zeroDivError⟩
      else
        let saved' := saved + 1
        if c.samples ≤ saved' then ⟨[s], 1, false⟩
        else
          let r := chainLoop c rest (step + 1) seen' saved'
          ⟨s :: r.records, r.iters + 1, r.zeroDivError⟩

/-- Everything `stream_plans_ndjson` does that a caller can observe.
`storeCreated` models the unconditional `open(out_path, "w").close()` executed
before the loop (it creates or truncates the output store).
`finalPrintSaved` is the count in the final `print(f"Stream-saved .. plans")`
line, reached only when no exception escapes the loop.  `returnValue` is the
Python function's return value: the body has no `return` statement, so the
caller receives `None` in every case — modelled as `none`, where a
shortfall-reporting implementation in the spec's sense would return
e.g. `some (produced, requested)`. -/
structure RunResult (α : Type) where
  storeCreated : Bool
  records : List α
  iters : ℕ
  zeroDivError : Bool
  finalPrintSaved : Option ℕ
  returnValue : Option (ℕ × ℕ)
deriving DecidableEq

/-- A full `stream_plans_ndjson` run over a given sequence of accepted chain
states (the MarkovChain itself — proposal, constraints, acceptance — is the
external Proposal Engine; a run passes it `total_steps c` as its length
bound, so the state sequence fed to the loop has at most `total_steps c`
elements). -/
def stream_plans_run (c : Cadence) {α : Type} (chain : List α) : RunResult α :=
  let r := chainLoop c chain 0 0 0
  { storeCreated := true
    records := r.records
    iters := r.iters
    zeroDivError := r.zeroDivError
    finalPrintSaved := if r.zeroDivError then none else some r.records.length
    returnValue := none }

/-- Elements of `chain` at enumerate indices `step` (mod `sb+1`) equal to
`sb`, starting the index count at `step` — the spec's "candidate-kept" steps. -/
def candidateKeptFrom (sb : ℕ) {α : Type} : List α → ℕ → List α
  | [], _ => []
  | s :: rest, step =>
    if step % (sb + 1) = sb then s :: candidateKeptFrom sb rest (step + 1)
    else candidateKeptFrom sb rest (step + 1)

/-- The spec's candidate-kept subsequence: every `(stepsBetween+1)`-th step. -/
def candidateKept (sb : ℕ) {α : Type} (chain : List α) : List α :=
  candidateKeptFrom sb chain 0

/-- Every `thin`-th element of a list (keeping the first), with the position
count started at `i`. -/
def everyNthFrom (thin : ℕ) {α : Type} : List α → ℕ → List α
  | [], _ => []
  | s :: rest, i =>
    if i % thin = 0 then s :: everyNthFrom thin rest (i + 1)
    else everyNthFrom thin rest (i + 1)

/-- The spec's characterization of the kept subsequence (claim C6): of the
accepted steps keep every `(stepsBetween+1)`-th, discard the first `burnIn`
of those, keep every `thin`-th of the remainder, and stop at `samples`
records. -/
def specKept (c : Cadence) {α : Type} (chain : List α) : List α :=
  (everyNthFrom c.thin ((candidateKept c.steps_between chain).drop c.burn_in) 0).take c.samples

theorem chainLoop_records (c : Cadence) {α : Type} (ht : 0 < c.thin) :
    ∀ (chain : List α) (step seen saved : ℕ), saved < c.samples →
      (chainLoop c chain step seen saved).records =
        (everyNthFrom c.thin
            ((candidateKeptFrom c.steps_between chain step).drop (c.burn_in - seen))
            (seen - c.burn_in)).take (c.samples - saved) := by
  intro chain
  induction chain with
  | nil =>
    intro step seen saved _
    simp [chainLoop, candidateKeptFrom, everyNthFrom]
  | cons s rest ih =>
    intro step seen saved hs
    by_cases h1 : step % (c.steps_between + 1) = c.steps_between
    · rw [chainLoop, if_neg (not_not_intro h1), candidateKeptFrom, if_pos h1]
      by_cases h2 : seen + 1 ≤ c.burn_in
      · rw [if_pos h2]
        have hd : c.burn_in - seen = (c.burn_in - (seen + 1)) + 1 := by omega
        have ho : seen - c.burn_in = (seen + 1) - c.burn_in := by omega
        rw [hd, List.drop_succ_cons, ho]
        exact ih (step + 1) (seen + 1) saved hs
      · rw [if_neg h2, if_neg (Nat.pos_iff_ne_zero.mp ht)]
        have hge : c.burn_in ≤ seen := by omega
        have hd0 : c.burn_in - seen = 0 := by omega
        rw [hd0, List.drop_zero, everyNthFrom]
        have hidx : seen + 1 - c.burn_in - 1 = seen - c.burn_in := by omega
        by_cases h3 : (seen + 1 - c.burn_in - 1) % c.thin = 0
        · rw [if_neg (not_not_intro h3)]
          rw [hidx] at h3
          rw [if_pos h3]
          have htake : c.samples - saved = (c.samples - (saved + 1)) + 1 := by omega
          rw [htake, List.take_succ_cons]
          by_cases h4 : c.samples ≤ saved + 1
          · rw [if_pos h4]
            have : c.samples - (saved + 1) = 0 := by omega
            rw [this, List.take_zero]
          · rw [if_neg h4]
            have hrec := ih (step + 1) (seen + 1) (saved + 1) (by omega)
            have hd1 : c.burn_in - (seen + 1) = 0 := by omega
            have ho1 : seen + 1 - c.burn_in = (seen - c.burn_in) + 1 := by omega
            rw [hd1, List.drop_zero, ho1] at hrec
            simpa using hrec
        · rw [if_pos h3]
          rw [hidx] at h3
          rw [if_neg h3]
          have hrec := ih (step + 1) (seen + 1) saved hs
          have hd1 : c.burn_in - (seen + 1) = 0 := by omega
          have ho1 : seen + 1 - c.burn_in = (seen - c.burn_in) + 1 := by omega
          rw [hd1, List.drop_zero, ho1] at hrec
          simpa using hrec
    · rw [chainLoop, if_pos h1, candidateKeptFrom, if_neg h1]
      simpa using ih (step + 1) seen saved hs

theorem chainLoop_noError (c : Cadence) {α : Type} (ht : 0 < c.thin) :
    ∀ (chain : List α) (step seen saved : ℕ),
      (chainLoop c chain step seen saved).zeroDivError = false := by
  intro chain
  induction chain with
  | nil => intro step seen saved; simp [chainLoop]
  | cons s rest ih =>
    intro step seen saved
    rw [chainLoop]
    by_cases h1 : step % (c.steps_between + 1) ≠ c.steps_between
    · simp [if_pos h1, ih]
    · rw [if_neg h1]
      by_cases h2 : seen + 1 ≤ c.burn_in
      · simp [if_pos h2, ih]
      · rw [if_neg h2, if_neg (Nat.pos_iff_ne_zero.mp ht)]
        by_cases h3 : (seen + 1 - c.burn_in - 1) % c.thin ≠ 0
        · simp [if_pos h3, ih]
        · rw [if_neg h3]
          by_cases h4 : c.samples ≤ saved + 1
          · simp [if_pos h4]
          · simp [if_neg h4, ih]

theorem chainLoop_below (c : Cadence) {α : Type} :
    ∀ (chain : List α) (step seen saved : ℕ), step + chain.length ≤ c.steps_between →
      chainLoop c chain step seen saved = ⟨[], chain.length, false⟩ := by
  intro chain
  induction chain with
  | nil => intro step seen saved _; simp [chainLoop]
  | cons s rest ih =>
    intro step seen saved h
    have hlen : rest.length + 1 = (s :: rest).length := by simp
    have hmod : step % (c.steps_between + 1) = step :=
      Nat.mod_eq_of_lt (by simp at h; omega)
    rw [chainLoop, if_pos (by rw [hmod]; simp at h; omega)]
    rw [ih (step + 1) seen saved (by simp at h ⊢; omega)]
    simp

/-- Claim C6, counterexample: the stop check runs only after a record is
written (`saved += 1; if saved >= samples: break`), so a run requesting
`samples = 0` with a positive burn-in still records the first post-burn-in
candidate-kept plan, where the claimed characterization ("stop as soon as
`samples` records have been kept") keeps none. -/
theorem stream_plans_cadence_cex :
    (stream_plans_run (⟨0, 0, 1, 1⟩ : Cadence) ([7, 8] : List ℕ)).records ≠
      specKept (⟨0, 0, 1, 1⟩ : Cadence) ([7, 8] : List ℕ) := by decide

/-- Claim C6 (amended): for every run of the chain loop with a positive
thinning interval and at least one requested sample, the kept subsequence is
exactly the spec's characterization — of the accepted steps every
`(stepsBetween+1)`-th is candidate-kept, the first `burnIn` candidate-kept
steps are discarded, every `thin`-th of the remainder is recorded, and
recording stops as soon as `samples` records have been kept — and the
total-step ceiling is `(samples+burnIn)*(stepsBetween+1)*thin` plus a slack
of 100.  (With `samples = 0` the loop can still record one plan, see the
counterexample.) -/
theorem stream_plans_cadence {α : Type} (c : Cadence) (chain : List α)
    (ht : 0 < c.thin) (hs : 0 < c.samples) :
    (stream_plans_run c chain).records = specKept c chain ∧
      total_steps c = (c.samples + c.burn_in) * (c.steps_between + 1) * c.thin + 100 := by
  constructor
  · have h := chainLoop_records c ht chain 0 0 0 hs
    simpa [stream_plans_run, specKept, candidateKept] using h
  · rfl

/-- Concrete instance of `stream_plans_cadence`: a 20-state chain with
2 samples, stepsBetween 1, burn-in 1 and thinning 2. -/
theorem stream_plans_cadence_witness :
    (stream_plans_run (⟨2, 1, 1, 2⟩ : Cadence) (List.range 20)).records =
        specKept (⟨2, 1, 1, 2⟩ : Cadence) (List.range 20) ∧
      total_steps (⟨2, 1, 1, 2⟩ : Cadence) = (2 + 1) * (1 + 1) * 2 + 100 :=
  stream_plans_cadence (⟨2, 1, 1, 2⟩ : Cadence) (List.range 20) (by decide) (by decide)

/-- Claim C3, counterexample: invoked with `thin = 0` (and the call sites'
`steps_between = 100`, `samples = 10`, `burn_in = 0`), the sampler does not
fail fast: the output store is created/truncated (`open(out_path, "w")` runs
before the loop), the loop executes its full 100-state budget, and no error
is raised — contradicting "no iteration of the chain loop is executed and
the output file is not created or truncated". -/
theorem thin_zero_no_fail_fast_cex :
    (stream_plans_run (⟨10, 100, 0, 0⟩ : Cadence)
        (List.range (total_steps ⟨10, 100, 0, 0⟩))).storeCreated = true ∧
      (stream_plans_run (⟨10, 100, 0, 0⟩ : Cadence)
        (List.range (total_steps ⟨10, 100, 0, 0⟩))).iters = 100 ∧
      (stream_plans_run (⟨10, 100, 0, 0⟩ : Cadence)
        (List.range (total_steps ⟨10, 100, 0, 0⟩))).zeroDivError = false := by decide

/-- Claim C3 (amended): `thin = 0` is not validated at all.  The output store
is created/truncated before the loop in every run.  With the call sites'
`steps_between = 100`, the step budget `total_steps` degenerates to the slack
`100`, which is below the first candidate-keep index, so the loop runs
through every chain state without recording anything and without raising:
the run ends normally with an empty store (the division by zero in the
thinning test is never reached). -/
theorem thin_zero_amended (samples burn_in : ℕ) (chain : List ℕ)
    (h : chain.length ≤ total_steps ⟨samples, 100, burn_in, 0⟩) :
    total_steps ⟨samples, 100, burn_in, 0⟩ = 100 ∧
      stream_plans_run (⟨samples, 100, burn_in, 0⟩ : Cadence) chain =
        ⟨true, [], chain.length, false, some 0, none⟩ := by
  have h100 : total_steps ⟨samples, 100, burn_in, 0⟩ = 100 := by
    simp [total_steps]
  refine ⟨h100, ?_⟩
  rw [stream_plans_run, chainLoop_below _ chain 0 0 0 (by rw [h100] at h; simpa using h)]
  simp

/-- Concrete instance of `thin_zero_amended` at the counterexample's input. -/
theorem thin_zero_amended_witness :
    total_steps ⟨10, 100, 0, 0⟩ = 100 ∧
      stream_plans_run (⟨10, 100, 0, 0⟩ : Cadence) (List.range 100) =
        ⟨true, [], (List.range 100).length, false, some 0, none⟩ :=
  thin_zero_amended 10 0 (List.range 100) (by decide)

/-- Claim C4, counterexample: a run that exhausts its chain after 1 record
when 2 were requested returns exactly the same value (`None`) as a run that
produces all 2 — the returned value does not distinguish a shortfall from
full success. -/
theorem shortfall_cex :
    (stream_plans_run (⟨2, 0, 0, 1⟩ : Cadence) ([5] : List ℕ)).returnValue =
        (stream_plans_run (⟨2, 0, 0, 1⟩ : Cadence) ([5, 6] : List ℕ)).returnValue ∧
      (stream_plans_run (⟨2, 0, 0, 1⟩ : Cadence) ([5] : List ℕ)).records.length < 2 ∧
      (stream_plans_run (⟨2, 0, 0, 1⟩ : Cadence) ([5, 6] : List ℕ)).records.length = 2 := by
  decide

/-- Claim C4 (amended): when the iteration budget runs out before `samples`
records are produced, the function returns normally with the short, unflagged
record list; its return value is `None`, identical to a full-success run, and
the only report of the produced count is the final printed summary
("Stream-saved M plans"), which states the number of records written. -/
theorem shortfall_amended {α : Type} (c : Cadence) (chain : List α) (ht : 0 < c.thin) :
    (stream_plans_run c chain).returnValue = none ∧
      (stream_plans_run c chain).finalPrintSaved =
        some (stream_plans_run c chain).records.length := by
  refine ⟨rfl, ?_⟩
  simp [stream_plans_run, chainLoop_noError c ht chain 0 0 0]

/-- Concrete instance of `shortfall_amended` at the shortfall input of the
counterexample. -/
theorem shortfall_amended_witness :
    (stream_plans_run (⟨2, 0, 0, 1⟩ : Cadence) ([5] : List ℕ)).returnValue = none ∧
      (stream_plans_run (⟨2, 0, 0, 1⟩ : Cadence) ([5] : List ℕ)).finalPrintSaved =
        some (stream_plans_run (⟨2, 0, 0, 1⟩ : Cadence) ([5] : List ℕ)).records.length :=
  shortfall_amended (⟨2, 0, 0, 1⟩ : Cadence) ([5] : List ℕ) (by decide)

theorem egAccum_eq (tallies : List (ℚ × ℚ)) :
    egAccum tallies =
      (((qualifying tallies).map (fun t => (amendedWasted t).1)).sum,
       ((qualifying tallies).map (fun t => (amendedWasted t).2)).sum,
       statewideTwoParty tallies) := by
  induction tallies with
  | nil => simp [egAccum, qualifying, statewideTwoParty]
  | cons t rest ih =>
    obtain ⟨dem, rep⟩ := t
    rw [egAccum, ih]
    by_cases h : dem + rep ≤ 0
    · have hq : ¬ (0 < dem + rep) := by linarith
      simp [qualifying, statewideTwoParty, List.filter_cons, hq, h]
    · have hq : (0 : ℚ) < dem + rep := by linarith
      simp only [if_neg h]
      simp only [qualifying, statewideTwoParty, List.filter_cons, decide_eq_true_eq,
        hq, if_pos, List.map_cons, List.sum_cons]
      refine Prod.ext ?_ (Prod.ext ?_ ?_) <;>
        simp only [amendedWasted, claimWasted, qualifying, statewideTwoParty,
          apply_ite Prod.fst, apply_ite Prod.snd] <;>
        ring

/-- Claim C5, counterexample: on the single-district tally family
`[(8/5, 3/2)]` the winner's votes (8/5) lie below the threshold
`floor(31/10 / 2) + 1 = 2`, so the claim formula counts wasted votes of
`8/5 - 2 = -2/5` for the winner while the code clamps that contribution to
zero (`max(dem_wasted, 0.0)`): the code returns `-15/31`, the claimed
formula `-19/31`. -/
theorem compute_efficiency_gap_cex :
    compute_efficiency_gap [((8 : ℚ)/5, 3/2)] ≠ claim_efficiency_gap [((8 : ℚ)/5, 3/2)] := by
  norm_num [compute_efficiency_gap, egAccum, claim_efficiency_gap, claimWasted,
    qualifying, statewideTwoParty]

/-- Claim C5 (amended): for every family of per-district tallies the
efficiency gap equals the spec formula with each wasted-vote contribution
clamped below at zero — over districts with positive two-party total,
`threshold = floor(total/2)+1`, the winner wastes `max(votes - threshold, 0)`,
the loser wastes `max(its total, 0)`, an exact tie wastes
`max(half of each side's total, 0)`, and
`EG = (wastedA - wastedB) / statewide_two_party_total`; it returns NaN
(`none`) whenever the statewide two-party total is zero, and it is a total
function (never raises). -/
theorem compute_efficiency_gap_spec (tallies : List (ℚ × ℚ)) :
    compute_efficiency_gap tallies = amended_efficiency_gap tallies ∧
      (statewideTwoParty tallies = 0 → compute_efficiency_gap tallies = none) := by
  constructor
  · rw [compute_efficiency_gap, amended_efficiency_gap, egAccum_eq]
  · intro h
    rw [compute_efficiency_gap, egAccum_eq]
    simp [h]

/-- Concrete instance of `compute_efficiency_gap_spec` at a zero-vote tally
family, exercising the NaN branch. -/
theorem compute_efficiency_gap_spec_witness :
    compute_efficiency_gap [((0 : ℚ), 0)] = amended_efficiency_gap [((0 : ℚ), 0)] ∧
      (statewideTwoParty [((0 : ℚ), 0)] = 0 → compute_efficiency_gap [((0 : ℚ), 0)] = none) :=
  compute_efficiency_gap_spec [((0 : ℚ), 0)]

/-- Claim C10: whenever at least one district has a positive two-party total
and the combined statewide totals over the qualifying districts are nonzero,
`compute_partisan_bias` returns a value, and that value lies in the closed
interval `[-1/2, 1/2]` — it is a count of qualifying districts divided by the
number of qualifying districts, minus `1/2`. -/
theorem compute_partisan_bias_bounds (tallies : List (ℚ × ℚ))
    (h1 : ∃ t ∈ tallies, 0 < t.1 + t.2)
    (h2 : ((qualifying tallies).map Prod.fst).sum +
        ((qualifying tallies).map Prod.snd).sum ≠ 0) :
    ∃ b, compute_partisan_bias tallies = some b ∧ -(1/2 : ℚ) ≤ b ∧ b ≤ 1/2 := by
  obtain ⟨t, ht, hpos⟩ := h1
  have hq : t ∈ qualifying tallies := by
    simp [qualifying, List.mem_filter, ht, hpos]
  have hqne : qualifying tallies ≠ [] := by
    intro hnil
    rw [hnil] at hq
    exact absurd hq (List.not_mem_nil t)
  have hsne : (qualifying tallies).map (fun t => t.1 / (t.1 + t.2)) ≠ [] := by
    simpa using hqne
  rw [compute_partisan_bias]
  rw [if_neg (by push_neg; exact ⟨hsne, h2⟩)]
  refine ⟨_, rfl, ?_, ?_⟩
  · have hn : 0 < (((qualifying tallies).map (fun t => t.1 / (t.1 + t.2))).map
        (fun s => min (max (s + (1 / 2 - ((qualifying tallies).map Prod.fst).sum /
          (((qualifying tallies).map Prod.fst).sum +
            ((qualifying tallies).map Prod.snd).sum))) 0) 1)).length := by
      simp only [List.length_map]
      exact List.length_pos.mpr hqne
    have hnum : (0 : ℚ) ≤ (((((qualifying tallies).map (fun t => t.1 / (t.1 + t.2))).map
        (fun s => min (max (s + (1 / 2 - ((qualifying tallies).map Prod.fst).sum /
          (((qualifying tallies).map Prod.fst).sum +
            ((qualifying tallies).map Prod.snd).sum))) 0) 1)).filter
          (fun s => decide ((1 : ℚ) / 2 < s))).length : ℚ) := by positivity
    have := div_nonneg hnum (by positivity :
      (0 : ℚ) ≤ ((((qualifying tallies).map (fun t => t.1 / (t.1 + t.2))).map
        (fun s => min (max (s + (1 / 2 - ((qualifying tallies).map Prod.fst).sum /
          (((qualifying tallies).map Prod.fst).sum +
            ((qualifying tallies).map Prod.snd).sum))) 0) 1)).length : ℚ))
    linarith
  · set swung := (((qualifying tallies).map (fun t => t.1 / (t.1 + t.2))).map
        (fun s => min (max (s + (1 / 2 - ((qualifying tallies).map Prod.fst).sum /
          (((qualifying tallies).map Prod.fst).sum +
            ((qualifying tallies).map Prod.snd).sum))) 0) 1)) with hsw
    have hlen : (swung.filter (fun s => decide ((1 : ℚ) / 2 < s))).length ≤ swung.length :=
      List.length_filter_le _ _
    have hpos' : 0 < swung.length := by
      rw [hsw]
      simp only [List.length_map]
      exact List.length_pos.mpr hqne
    have hposq : (0 : ℚ) < (swung.length : ℚ) := by exact_mod_cast hpos'
    have hle : ((swung.filter (fun s => decide ((1 : ℚ) / 2 < s))).length : ℚ) ≤
        (swung.length : ℚ) := by exact_mod_cast hlen
    have := div_le_one_of_le₀ hle (le_of_lt hposq)
    linarith

/-- Concrete instance of `compute_partisan_bias_bounds` at the single tied
district `[(1, 1)]`. -/
theorem compute_partisan_bias_bounds_witness :
    ∃ b, compute_partisan_bias [((1 : ℚ), 1)] = some b ∧ -(1/2 : ℚ) ≤ b ∧ b ≤ 1/2 :=
  compute_partisan_bias_bounds [((1 : ℚ), 1)]
    ⟨((1 : ℚ), 1), by norm_num⟩ (by norm_num [qualifying])

theorem sum_fiberwise (f : ℕ × ℕ → ℚ) :
    ∀ (keys : List ℕ) (l : List (ℕ × ℕ)), keys.Nodup → (∀ p ∈ l, p.2 ∈ keys) →
      (keys.map (fun d => ((l.filter (fun p => decide (p.2 = d))).map f).sum)).sum =
        (l.map f).sum := by
  intro keys
  induction keys with
  | nil =>
    intro l _ hmem
    have hl : l = [] := List.eq_nil_iff_forall_not_mem.mpr
      (fun p hp => by simpa using hmem p hp)
    simp [hl]
  | cons d ks ih =>
    intro l hnd hmem
    simp only [List.map_cons, List.sum_cons]
    have hperm : List.Perm
        (l.filter (fun p => decide (p.2 = d)) ++ l.filter (fun p => !decide (p.2 = d))) l :=
      List.filter_append_perm _ l
    have hsplit : (l.map f).sum =
        ((l.filter (fun p => decide (p.2 = d))).map f).sum +
          ((l.filter (fun p => !decide (p.2 = d))).map f).sum := by
      calc (l.map f).sum
          = (((l.filter (fun p => decide (p.2 = d)) ++
              l.filter (fun p => !decide (p.2 = d))).map f)).sum :=
            ((hperm.map f).sum_eq).symm
        _ = _ := by simp
    rw [hsplit]
    congr 1
    have hks : ∀ d' ∈ ks,
        (l.filter (fun p => !decide (p.2 = d))).filter (fun p => decide (p.2 = d')) =
          l.filter (fun p => decide (p.2 = d')) := by
      intro d' hd'
      have hne : d' ≠ d := fun he => (List.nodup_cons.mp hnd).1 (he ▸ hd')
      rw [List.filter_filter]
      apply List.filter_congr
      intro p _
      by_cases hp2 : p.2 = d'
      · simp [hp2, hne]
      · simp [hp2]
    have hmem' : ∀ p ∈ l.filter (fun p => !decide (p.2 = d)), p.2 ∈ ks := by
      intro p hp
      rw [List.mem_filter] at hp
      have h1 := hmem p hp.1
      have h2 : p.2 ≠ d := by simpa using hp.2
      simp only [List.mem_cons] at h1
      exact h1.resolve_left h2
    rw [← ih (l.filter (fun p => !decide (p.2 = d))) (List.nodup_cons.mp hnd).2 hmem']
    apply congrArg
    apply List.map_congr_left
    intro d' hd'
    rw [hks d' hd']

theorem assignedPresent_eq_self {g : PGraph} {asg : List (ℕ × ℕ)}
    (h : ∀ p ∈ asg, p.1 ∈ g.nodes) : assignedPresent g asg = asg :=
  List.filter_eq_self.mpr (fun p hp => by simpa using h p hp)

/-- Claim C8: for every graph and plan whose assigned nodes are all graph
nodes, tally aggregation is exact — the sum over districts of the
per-district Democratic tally equals the sum of the Democratic attribute over
all assigned nodes, and likewise for the Republican attribute. -/
theorem aggregate_votes_exact (g : PGraph) (asg : List (ℕ × ℕ))
    (h : ∀ p ∈ asg, p.1 ∈ g.nodes) :
    ((aggregate_votes_by_district g asg).map Prod.fst).sum =
        (asg.map (fun p => attrVal (g.dem p.1))).sum ∧
      ((aggregate_votes_by_district g asg).map Prod.snd).sum =
        (asg.map (fun p => attrVal (g.rep p.1))).sum := by
  have hset := assignedPresent_eq_self h
  have hnd : ((asg.map Prod.snd).dedup).Nodup := List.nodup_dedup _
  have hmem : ∀ p ∈ asg, p.2 ∈ (asg.map Prod.snd).dedup := fun p hp =>
    List.mem_dedup.mpr (List.mem_map_of_mem _ hp)
  constructor
  · rw [aggregate_votes_by_district, List.map_map]
    simp only [Function.comp_def]
    simp only [dem_by_dist, aggKeys, hset]
    exact sum_fiberwise _ _ asg hnd hmem
  · rw [aggregate_votes_by_district, List.map_map]
    simp only [Function.comp_def]
    simp only [rep_by_dist, aggKeys, hset]
    exact sum_fiberwise _ _ asg hnd hmem

/-- Concrete instance of `aggregate_votes_exact` on a 3-node graph and a
2-district plan. -/
theorem aggregate_votes_exact_witness :
    ((aggregate_votes_by_district ⟨[0, 1, 2], [], fun n => some n, fun _ => some 1⟩
        [(0, 5), (1, 5), (2, 6)]).map Prod.fst).sum =
        ([(0, 5), (1, 5), (2, 6)].map
          (fun p : ℕ × ℕ => attrVal ((fun n => some (n : ℚ)) p.1))).sum ∧
      ((aggregate_votes_by_district ⟨[0, 1, 2], [], fun n => some n, fun _ => some 1⟩
        [(0, 5), (1, 5), (2, 6)]).map Prod.snd).sum =
        ([(0, 5), (1, 5), (2, 6)].map
          (fun p : ℕ × ℕ => attrVal ((fun _ => some (1 : ℚ)) p.1))).sum :=
  aggregate_votes_exact ⟨[0, 1, 2], [], fun n => some n, fun _ => some 1⟩
    [(0, 5), (1, 5), (2, 6)] (by decide)

theorem natThreshold (a b : ℕ) :
    ((⌊(((a : ℚ)) + (b : ℚ)) / 2⌋ : ℤ) : ℚ) = (((a + b) / 2 : ℕ) : ℚ) := by
  have hcast : ((a : ℚ) + (b : ℚ)) = ((a + b : ℕ) : ℚ) := by push_cast; ring
  rw [hcast, show ((2 : ℚ)) = (((2 : ℕ) : ℚ)) from by norm_num,
    Rat.floor_natCast_div_natCast]
  norm_cast

theorem claimWasted_nonneg_of_nat (a b : ℕ) :
    0 ≤ (claimWasted ((a : ℚ), (b : ℚ))).1 ∧ 0 ≤ (claimWasted ((a : ℚ), (b : ℚ))).2 := by
  have hth := natThreshold a b
  by_cases hba : (b : ℚ) < (a : ℚ)
  · have hba' : b < a := by exact_mod_cast hba
    have hdiv : (a + b) / 2 < a := Nat.div_lt_of_lt_mul (by omega)
    have h1 : (((a + b) / 2 : ℕ) : ℚ) + 1 ≤ (a : ℚ) := by
      exact_mod_cast (by omega : (a + b) / 2 + 1 ≤ a)
    rw [claimWasted]
    simp only [hth, if_pos hba]
    constructor
    · linarith
    · positivity
  · by_cases hab : (a : ℚ) < (b : ℚ)
    · have hab' : a < b := by exact_mod_cast hab
      have hdiv : (a + b) / 2 < b := Nat.div_lt_of_lt_mul (by omega)
      have h1 : (((a + b) / 2 : ℕ) : ℚ) + 1 ≤ (b : ℚ) := by
        exact_mod_cast (by omega : (a + b) / 2 + 1 ≤ b)
      rw [claimWasted]
      simp only [hth, if_neg hba, if_pos hab]
      constructor
      · positivity
      · linarith
    · rw [claimWasted]
      simp only [hth, if_neg hba, if_neg hab]
      constructor
      · positivity
      · positivity

theorem amendedWasted_of_nat (a b : ℕ) :
    amendedWasted ((a : ℚ), (b : ℚ)) = claimWasted ((a : ℚ), (b : ℚ)) := by
  obtain ⟨h1, h2⟩ := claimWasted_nonneg_of_nat a b
  rw [amendedWasted, max_eq_left h1, max_eq_left h2]

theorem seats_eq_gop (tallies : List (ℚ × ℚ)) :
    seats_gop_by_tally tallies = (analysisSeatCounts tallies).2.1 := by
  induction tallies with
  | nil => rfl
  | cons t rest ih =>
    obtain ⟨dem, rep⟩ := t
    simp only [seats_gop_by_tally, List.map_cons, List.sum_cons, analysisSeatCounts] at ih ⊢
    by_cases h1 : rep < dem
    · have h2 : ¬ dem < rep := by linarith
      simp [h1, h2, ih]
    · by_cases h2 : dem < rep
      · simp [h1, h2, ← ih]
        omega
      · simp [h1, h2, ih]

theorem natSumOfList (l : List (ℕ × ℕ)) (f : ℕ × ℕ → ℚ)
    (h : ∀ x ∈ l, ∃ n : ℕ, f x = n) : ∃ n : ℕ, (l.map f).sum = n := by
  induction l with
  | nil => exact ⟨0, by simp⟩
  | cons x rest ih =>
    obtain ⟨n1, hn1⟩ := h x (by simp)
    obtain ⟨n2, hn2⟩ := ih (fun y hy => h y (by simp [hy]))
    exact ⟨n1 + n2, by simp [hn1, hn2]⟩

theorem claim_eg_eq_compute_of_nat (tallies : List (ℚ × ℚ))
    (h : ∀ t ∈ tallies, (∃ a : ℕ, t.1 = a) ∧ (∃ b : ℕ, t.2 = b)) :
    claim_efficiency_gap tallies = compute_efficiency_gap tallies := by
  have hmem : ∀ t ∈ qualifying tallies, amendedWasted t = claimWasted t := by
    intro t ht
    have ht' : t ∈ tallies := List.mem_of_mem_filter ht
    obtain ⟨⟨a, ha⟩, ⟨b, hb⟩⟩ := h t ht'
    have hts : t = ((a : ℚ), (b : ℚ)) := by
      rw [← ha, ← hb]
    rw [hts]
    exact amendedWasted_of_nat a b
  rw [compute_efficiency_gap, egAccum_eq, claim_efficiency_gap]
  have hm1 : (qualifying tallies).map (fun t => (amendedWasted t).1) =
      (qualifying tallies).map (fun t => (claimWasted t).1) :=
    List.map_congr_left (fun t ht => by rw [hmem t ht])
  have hm2 : (qualifying tallies).map (fun t => (amendedWasted t).2) =
      (qualifying tallies).map (fun t => (claimWasted t).2) :=
    List.map_congr_left (fun t ht => by rw [hmem t ht])
  simp only [hm1, hm2]

theorem aggregate_eq_genTallies (g : PGraph) (asg : List (ℕ × ℕ))
    (h : ∀ p ∈ asg, p.1 ∈ g.nodes) :
    aggregate_votes_by_district g asg = genTallies g asg := by
  rw [aggregate_votes_by_district, genTallies, aggKeys, genKeys, assignedPresent_eq_self h]
  apply List.map_congr_left
  intro d _
  rw [dem_by_dist, rep_by_dist, genTally, assignedPresent_eq_self h]

/-- Claim C1, counterexample: on a one-node graph with fractional vote
attributes (dem 8/5, rep 3/2) under the plan assigning the node to district
1, the generation-time efficiency gap (the spec §4.3 formula that the spec
says both paths share) is `-19/31` while the analyzer's
`compute_efficiency_gap` returns `-15/31`, because the analyzer clamps the
winner's negative wasted votes at zero.  The two embeddings do not return
equal values for identical inputs. -/
theorem generation_analysis_agree_cex :
    generation_efficiency_gap
        (genTallies ⟨[0], [], fun _ => some (8/5), fun _ => some (3/2)⟩ [(0, 1)]) ≠
      compute_efficiency_gap
        (aggregate_votes_by_district
          ⟨[0], [], fun _ => some (8/5), fun _ => some (3/2)⟩ [(0, 1)]) := by
  have hgen : genTallies (⟨[0], [], fun _ => some (8/5), fun _ => some (3/2)⟩ : PGraph)
      [(0, 1)] = [((8 : ℚ)/5, 3/2)] := by
    simp [genTallies, genKeys, genTally, attrVal]
  have hagg : aggregate_votes_by_district
      (⟨[0], [], fun _ => some (8/5), fun _ => some (3/2)⟩ : PGraph) [(0, 1)] =
      [((8 : ℚ)/5, 3/2)] := by
    simp [aggregate_votes_by_district, aggKeys, assignedPresent, dem_by_dist,
      rep_by_dist, attrVal]
  rw [hgen, hagg]
  norm_num [generation_efficiency_gap, claim_efficiency_gap, claimWasted, qualifying,
    statewideTwoParty, compute_efficiency_gap, egAccum]

/-- Claim C1 (amended): for every graph and plan whose assigned nodes are
graph nodes, the generation-time and analysis-time seat tallies coincide
(both count the districts where the Republican tally strictly exceeds the
Democratic tally over the same per-district aggregation), and — whenever
every node's vote attributes are natural numbers, as the generation-time
preprocessing pass guarantees (`a[key] = int(round(v))` with non-negative
vote data) — the generation-time efficiency gap equals the analyzer's
`compute_efficiency_gap`.  On fractional attributes the two can differ (see
the counterexample): the clamping of negative wasted votes is a no-op
exactly on integer tallies. -/
theorem generation_analysis_agree (g : PGraph) (asg : List (ℕ × ℕ))
    (h : ∀ p ∈ asg, p.1 ∈ g.nodes) :
    seats_gop_by_tally (genTallies g asg) =
        (analysisSeatCounts (aggregate_votes_by_district g asg)).2.1 ∧
      ((∀ n : ℕ, (∃ a : ℕ, attrVal (g.dem n) = a) ∧ (∃ b : ℕ, attrVal (g.rep n) = b)) →
        generation_efficiency_gap (genTallies g asg) =
          compute_efficiency_gap (aggregate_votes_by_district g asg)) := by
  have hagg := aggregate_eq_genTallies g asg h
  constructor
  · rw [hagg]
    exact seats_eq_gop _
  · intro hint
    rw [hagg, generation_efficiency_gap]
    apply claim_eg_eq_compute_of_nat
    intro t ht
    obtain ⟨d, _, hd⟩ := List.mem_map.mp ht
    have h1 : ∃ a : ℕ, (genTally g asg d).1 = a := by
      rw [genTally]
      exact natSumOfList _ _ (fun p _ => (hint p.1).1)
    have h2 : ∃ b : ℕ, (genTally g asg d).2 = b := by
      rw [genTally]
      exact natSumOfList _ _ (fun p _ => (hint p.1).2)
    rw [← hd]
    exact ⟨h1, h2⟩

/-- Concrete instance of `generation_analysis_agree` on a two-node,
two-district graph with integer vote attributes. -/
theorem generation_analysis_agree_witness :
    seats_gop_by_tally
        (genTallies ⟨[0, 1], [], fun _ => some 3, fun _ => some 1⟩ [(0, 1), (1, 2)]) =
        (analysisSeatCounts
          (aggregate_votes_by_district
            ⟨[0, 1], [], fun _ => some 3, fun _ => some 1⟩ [(0, 1), (1, 2)])).2.1 ∧
      ((∀ n : ℕ,
          (∃ a : ℕ, attrVal ((fun _ => some (3 : ℚ)) n) = a) ∧
            (∃ b : ℕ, attrVal ((fun _ => some (1 : ℚ)) n) = b)) →
        generation_efficiency_gap
            (genTallies ⟨[0, 1], [], fun _ => some 3, fun _ => some 1⟩ [(0, 1), (1, 2)]) =
          compute_efficiency_gap
            (aggregate_votes_by_district
              ⟨[0, 1], [], fun _ => some 3, fun _ => some 1⟩ [(0, 1), (1, 2)])) :=
  generation_analysis_agree ⟨[0, 1], [], fun _ => some 3, fun _ => some 1⟩
    [(0, 1), (1, 2)] (by decide)

/-- Undirected adjacency of the precinct graph: the edge list contains either
orientation of the pair. -/
def adjP (g : PGraph) (u v : ℕ) : Prop := (u, v) ∈ g.edges ∨ (v, u) ∈ g.edges

/-- Boolean form of `adjP` used by the executable connectivity check. -/
def adjB (g : PGraph) (u v : ℕ) : Bool :=
  decide ((u, v) ∈ g.edges) || decide ((v, u) ∈ g.edges)

/-- Member nodes of a district: the vertex set of the induced subgraph
`G.subgraph(nodes)` (networkx keeps only the nodes present in `G`). -/
def members (g : PGraph) (part : List ℕ) : List ℕ :=
  part.filter (fun v => decide (v ∈ g.nodes))

/-- Frontier of a neighbour-expansion step: member nodes not yet reached that
are adjacent to some reached node. -/
def nbrsOf (g : PGraph) (m reached : List ℕ) : List ℕ :=
  m.dedup.filter (fun v => decide (v ∉ reached) && reached.any (fun u => adjB g u v))

/-- Iterated neighbour expansion from the seed `s`, restricted to the member
set `m`. -/
def reachList (g : PGraph) (m : List ℕ) (s : ℕ) : ℕ → List ℕ
  | 0 => [s]
  | k + 1 => reachList g m s k ++ nbrsOf g m (reachList g m s k)

/-- Modelled from the spec: networkx's `is_connected` on the induced subgraph
(external library, not in this repository).  Spec §4.2: the district's member
subgraph "forms a single connected component (no node unreachable from any
other via edges restricted to the district's members)".  Decided here by
iterated neighbour expansion from one member node; `members.length` rounds of
expansion saturate the reachable set. -/
def nx_is_connected (g : PGraph) (m : List ℕ) : Bool :=
  m.all (fun v => decide (v ∈ reachList g m (m.headD 0) m.length))

/-- The controller's `is_partition_contiguous`: for every district of the
plan, the induced member subgraph is non-empty and connected
(`if sub.number_of_nodes() == 0 or not nx.is_connected(sub): return False`). -/
def is_partition_contiguous (g : PGraph) (parts : List (List ℕ)) : Bool :=
  parts.all (fun p => !(members g p).isEmpty && nx_is_connected g (members g p))

/-- One step inside a district: both endpoints are member nodes and the graph
joins them by an edge. -/
def StepIn (g : PGraph) (m : List ℕ) (u v : ℕ) : Prop :=
  u ∈ m ∧ v ∈ m ∧ adjP g u v

/-- Reachability via edges restricted to the district's member nodes — the
spec's connectivity notion. -/
def ReachIn (g : PGraph) (m : List ℕ) (u v : ℕ) : Prop :=
  Relation.ReflTransGen (StepIn g m) u v

theorem stepIn_symm (g : PGraph) (m : List ℕ) : Symmetric (StepIn g m) := by
  intro u v ⟨hu, hv, hadj⟩
  exact ⟨hv, hu, hadj.symm⟩

theorem reachIn_symm (g : PGraph) (m : List ℕ) {u v : ℕ} (h : ReachIn g m u v) :
    ReachIn g m v u :=
  Relation.ReflTransGen.symmetric (stepIn_symm g m) h

theorem reachList_mono (g : PGraph) (m : List ℕ) (s : ℕ) {k l : ℕ} (hkl : k ≤ l) :
    ∀ v ∈ reachList g m s k, v ∈ reachList g m s l := by
  induction l, hkl using Nat.le_induction with
  | base => exact fun v hv => hv
  | succ l _ ih =>
    intro v hv
    rw [reachList]
    exact List.mem_append_left _ (ih v hv)

theorem reachList_sound (g : PGraph) (m : List ℕ) (s : ℕ) (hs : s ∈ m) :
    ∀ (k : ℕ), ∀ v ∈ reachList g m s k, ReachIn g m s v ∧ v ∈ m := by
  intro k
  induction k with
  | zero =>
    intro v hv
    simp only [reachList, List.mem_singleton] at hv
    subst hv
    exact ⟨Relation.ReflTransGen.refl, hs⟩
  | succ k ih =>
    intro v hv
    rw [reachList] at hv
    rcases List.mem_append.mp hv with hv | hv
    · exact ih v hv
    · rw [nbrsOf, List.mem_filter] at hv
      obtain ⟨hvm, hcond⟩ := hv
      rw [Bool.and_eq_true, List.any_eq_true] at hcond
      obtain ⟨_, ⟨u, hu, hadj⟩⟩ := hcond
      obtain ⟨hru, hum⟩ := ih u hu
      have hvm' : v ∈ m := List.mem_dedup.mp hvm
      have hadj' : adjP g u v := by
        rw [adjB, Bool.or_eq_true, decide_eq_true_eq, decide_eq_true_eq] at hadj
        exact hadj
      exact ⟨hru.tail ⟨hum, hvm', hadj'⟩, hvm'⟩

theorem reachList_nodup (g : PGraph) (m : List ℕ) (s : ℕ) :
    ∀ (k : ℕ), (reachList g m s k).Nodup := by
  intro k
  induction k with
  | zero => simp [reachList]
  | succ k ih =>
    rw [reachList]
    apply List.Nodup.append ih
    · exact (List.nodup_dedup m).filter _
    · intro v hv hv'
      rw [nbrsOf, List.mem_filter, Bool.and_eq_true, decide_eq_true_eq] at hv'
      exact hv'.2.1 hv

theorem reachList_subset (g : PGraph) (m : List ℕ) (s : ℕ) (hs : s ∈ m) (k : ℕ) :
    ∀ v ∈ reachList g m s k, v ∈ m :=
  fun v hv => (reachList_sound g m s hs k v hv).2

theorem reachList_length_le (g : PGraph) (m : List ℕ) (s : ℕ) (hs : s ∈ m) (k : ℕ) :
    (reachList g m s k).length ≤ m.length :=
  ((reachList_nodup g m s k).subperm (reachList_subset g m s hs k)).length_le

theorem reachList_saturates (g : PGraph) (m : List ℕ) (s : ℕ) (hs : s ∈ m) :
    ∃ k ≤ m.length, nbrsOf g m (reachList g m s k) = [] := by
  by_contra hcon
  push_neg at hcon
  have hgrow : ∀ k ≤ m.length, k + 1 ≤ (reachList g m s k).length := by
    intro k
    induction k with
    | zero => intro _; simp [reachList]
    | succ k ih =>
      intro hk
      have h1 := ih (by omega)
      have h2 := hcon k (by omega)
      have h3 : 1 ≤ (nbrsOf g m (reachList g m s k)).length :=
        Nat.one_le_iff_ne_zero.mpr (fun h0 => h2 (List.length_eq_zero.mp h0))
      calc k + 1 + 1 ≤ (reachList g m s k).length + (nbrsOf g m (reachList g m s k)).length := by
            omega
        _ = (reachList g m s (k + 1)).length := by rw [reachList, List.length_append]
  have h1 := hgrow m.length (le_refl _)
  have h2 := reachList_length_le g m s hs m.length
  omega

theorem reachList_stable (g : PGraph) (m : List ℕ) (s : ℕ) {k : ℕ}
    (hsat : nbrsOf g m (reachList g m s k) = []) :
    ∀ j, k ≤ j → reachList g m s j = reachList g m s k := by
  intro j hj
  induction j, hj using Nat.le_induction with
  | base => rfl
  | succ j _ ih => rw [reachList, ih, hsat, List.append_nil]

theorem reachList_closed (g : PGraph) (m : List ℕ) (s : ℕ) {k : ℕ}
    (hsat : nbrsOf g m (reachList g m s k) = []) :
    ∀ u ∈ reachList g m s k, ∀ v ∈ m, adjP g u v → v ∈ reachList g m s k := by
  intro u hu v hv hadj
  by_contra hvn
  have hmem : v ∈ nbrsOf g m (reachList g m s k) := by
    rw [nbrsOf, List.mem_filter]
    refine ⟨List.mem_dedup.mpr hv, ?_⟩
    rw [Bool.and_eq_true, decide_eq_true_eq, List.any_eq_true]
    refine ⟨hvn, u, hu, ?_⟩
    rw [adjB, Bool.or_eq_true, decide_eq_true_eq, decide_eq_true_eq]
    exact hadj
  rw [hsat] at hmem
  exact absurd hmem (List.not_mem_nil v)

theorem reachList_complete (g : PGraph) (m : List ℕ) (s : ℕ) (hs : s ∈ m) {v : ℕ}
    (h : ReachIn g m s v) : v ∈ reachList g m s m.length := by
  obtain ⟨k, hk, hsat⟩ := reachList_saturates g m s hs
  have hstab := reachList_stable g m s hsat m.length hk
  rw [hstab]
  induction h with
  | refl =>
    exact reachList_mono g m s (Nat.zero_le k) s (by simp [reachList])
  | tail _ hstep ih =>
    exact reachList_closed g m s hsat _ ih _ hstep.2.1 hstep.2.2

theorem nx_is_connected_iff (g : PGraph) (m : List ℕ) (hne : m ≠ []) :
    nx_is_connected g m = true ↔ ∀ u ∈ m, ∀ v ∈ m, ReachIn g m u v := by
  obtain ⟨x, xs, rfl⟩ := List.exists_cons_of_ne_nil hne
  have hhead : (x :: xs).headD 0 = x := rfl
  have hx : x ∈ x :: xs := List.mem_cons_self x xs
  rw [nx_is_connected, List.all_eq_true, hhead]
  constructor
  · intro h u hu v hv
    have hru : ReachIn g (x :: xs) x u :=
      (reachList_sound g (x :: xs) x hx _ u (by simpa using h u hu)).1
    have hrv : ReachIn g (x :: xs) x v :=
      (reachList_sound g (x :: xs) x hx _ v (by simpa using h v hv)).1
    exact (reachIn_symm g (x :: xs) hru).trans hrv
  · intro h v hv
    simpa using reachList_complete g (x :: xs) x hx (h x hx v hv)

/-- Claim C7: the contiguity check returns true iff every district's member
node set (its nodes that exist in the graph — the vertex set of the induced
subgraph) is non-empty and forms a single connected component: every member
is reachable from every other via graph edges restricted to the district's
members.  In particular it returns false when some district's members split
into clusters with no connecting edge, and true when each district's member
set is one connected component. -/
theorem is_partition_contiguous_iff (g : PGraph) (parts : List (List ℕ)) :
    is_partition_contiguous g parts = true ↔
      ∀ p ∈ parts, members g p ≠ [] ∧
        ∀ u ∈ members g p, ∀ v ∈ members g p, ReachIn g (members g p) u v := by
  rw [is_partition_contiguous, List.all_eq_true]
  apply forall_congr'
  intro p
  apply imp_congr_right
  intro _
  rw [Bool.and_eq_true, Bool.not_eq_true', List.isEmpty_eq_false_iff_exists_mem]
  constructor
  · intro ⟨⟨y, hy⟩, hconn⟩
    have hne : members g p ≠ [] := List.ne_nil_of_mem hy
    exact ⟨hne, (nx_is_connected_iff g (members g p) hne).mp hconn⟩
  · intro ⟨hne, hconn⟩
    obtain ⟨y, hy⟩ := List.exists_mem_of_ne_nil _ hne
    exact ⟨⟨y, hy⟩, (nx_is_connected_iff g (members g p) hne).mpr hconn⟩

/-- Scalar JSON values appearing in a plan record (integers, strings,
booleans; the float-valued fields are orthogonal to the line structure the
store claims are about and integer-representable values stand in for them). -/
inductive JScalar where
  | jint : ℤ → JScalar
  | jstr : String → JScalar
  | jbool : Bool → JScalar
deriving DecidableEq

/-- A top-level field value of a plan record: a scalar or a nested flat
object of scalars (the record's `meta` and `assignment` blocks). -/
inductive JField where
  | scalar : JScalar → JField
  | obj : List (String × JScalar) → JField
deriving DecidableEq

/-- A plan record: a JSON object given as its ordered key/value fields. -/
abbrev JRecord := List (String × JField)

/-- The opening-brace character of JSON object syntax. -/
def obChar : Char := Char.ofNat 123

/-- The closing-brace character of JSON object syntax. -/
def cbChar : Char := Char.ofNat 125

/-- The double-quote character of JSON string syntax. -/
def dqChar : Char := Char.ofNat 34

/-- A JSON-quoted string (the keys and string values used by the records
contain no characters that need escaping). -/
def jquote (s : String) : String :=
  String.mk (dqChar :: s.data ++ [dqChar])

/-- A run of `n` spaces. -/
def indentStr (n : ℕ) : String := String.mk (List.replicate n ' ')

/-- Python's text for a scalar inside `json.dump`. -/
def scalarText : JScalar → String
  | .jint n => toString n
  | .jstr s => jquote s
  | .jbool b => if b then "true" else "false"

/-- Append a suffix to the last line of a block. -/
def appendLast (suf : String) : List String → List String
  | [] => []
  | [a] => [a ++ suf]
  | a :: rest => a :: appendLast suf rest

/-- Lines of the entries of a nested (depth-1) object under `indent=2`:
each entry on its own line at four spaces, comma-separated. -/
def innerLines : List (String × JScalar) → List String
  | [] => []
  | [(k, v)] => [indentStr 4 ++ jquote k ++ ": " ++ scalarText v]
  | (k, v) :: rest =>
    (indentStr 4 ++ jquote k ++ ": " ++ scalarText v ++ ",") :: innerLines rest

/-- Lines of one top-level field under `indent=2`: scalars inline; a
non-empty nested object opens its brace on the key's line, lists its entries
at deeper indent, and closes at the key's indent. -/
def fieldBlock : String × JField → List String
  | (k, .scalar v) => [indentStr 2 ++ jquote k ++ ": " ++ scalarText v]
  | (k, .obj []) => [indentStr 2 ++ jquote k ++ ": " ++ String.mk [obChar, cbChar]]
  | (k, .obj (e :: es)) =>
    (indentStr 2 ++ jquote k ++ ": " ++ String.mk [obChar]) ::
      innerLines (e :: es) ++ [indentStr 2 ++ String.mk [cbChar]]

/-- Comma-joined blocks of all top-level fields. -/
def recordBlocks : JRecord → List String
  | [] => []
  | [f] => fieldBlock f
  | f :: rest => appendLast "," (fieldBlock f) ++ recordBlocks rest

/-- The lines `json.dump(obj, pf, indent=2)` produces for one plan record: a
non-empty object spans several lines — `\x7b`, one or more field lines, and a
closing `\x7d` line. -/
def jsonDumpLines : JRecord → List String
  | [] => [String.mk [obChar, cbChar]]
  | f :: fs => String.mk [obChar] :: recordBlocks (f :: fs) ++ [String.mk [cbChar]]

/-- Lines appended to the plan store for one kept plan:
`json.dump(obj, pf, indent=2)` followed by `pf.write("\n\n")` — the dump text
carries no trailing newline, so the first newline terminates the record's
last line and the second produces one blank separator line. -/
def stream_plans_record_lines (r : JRecord) : List String :=
  jsonDumpLines r ++ [""]

/-- The full line sequence of the plan store written by `stream_plans_ndjson`
for a run that keeps the given records. -/
def stream_plans_store_lines (rs : List JRecord) : List String :=
  (rs.map stream_plans_record_lines).flatten

/-- Skip leading spaces (the only whitespace the store's lines contain). -/
def skipWs : List Char → List Char
  | c :: cs => if c = ' ' then skipWs cs else c :: cs
  | [] => []

/-- Parse the remainder of a JSON string after the opening quote. -/
def parseStrRest : List Char → List Char → Option (String × List Char)
  | [], _ => none
  | c :: cs, acc =>
    if c = dqChar then some (String.mk acc.reverse, cs)
    else parseStrRest cs (c :: acc)

/-- Parse a JSON string starting at its opening quote. -/
def parseJStr : List Char → Option (String × List Char)
  | c :: cs => if c = dqChar then parseStrRest cs [] else none
  | [] => none

/-- Longest leading run of decimal digits. -/
def takeDigits : List Char → List Char × List Char
  | [] => ([], [])
  | c :: cs =>
    if c.isDigit then
      let (d, r) := takeDigits cs
      (c :: d, r)
    else ([], c :: cs)

/-- Numeric value of a digit run. -/
def digitsToNat (ds : List Char) : ℕ :=
  ds.foldl (fun acc c => acc * 10 + (c.toNat - 48)) 0

/-- Parse one scalar (string, boolean literal, or integer). -/
def parseScalar (cs : List Char) : Option (JScalar × List Char) :=
  match cs with
  | [] => none
  | c :: rest =>
    if c = dqChar then (parseJStr cs).map (fun p => (JScalar.jstr p.1, p.2))
    else if c = 't' then
      if rest.take 3 = ['r', 'u', 'e'] then some (.jbool true, rest.drop 3) else none
    else if c = 'f' then
      if rest.take 4 = ['a', 'l', 's', 'e'] then some (.jbool false, rest.drop 4) else none
    else if c = '-' then
      match takeDigits rest with
      | ([], _) => none
      | (ds, r) => some (.jint (-(digitsToNat ds : ℤ)), r)
    else if c.isDigit then
      match takeDigits cs with
      | (ds, r) => some (.jint (digitsToNat ds), r)
    else none

/-- Parse one `"key": scalar` entry. -/
def parseEntry (cs : List Char) : Option ((String × JScalar) × List Char) :=
  match parseJStr (skipWs cs) with
  | none => none
  | some (k, r1) =>
    match skipWs r1 with
    | c :: r2 =>
      if c = ':' then
        match parseScalar (skipWs r2) with
        | none => none
        | some (v, r3) => some ((k, v), r3)
      else none
    | [] => none

/-- Parse the entries of a flat object after its opening brace, including the
closing brace. -/
def parseObjRest (fuel : ℕ) (cs : List Char) : Option (List (String × JScalar) × List Char) :=
  match fuel with
  | 0 => none
  | fuel + 1 =>
    match skipWs cs with
    | c :: r1 =>
      if c = cbChar then some ([], r1)
      else
        match parseEntry cs with
        | none => none
        | some (e, r2) =>
          match skipWs r2 with
          | c2 :: r3 =>
            if c2 = ',' then
              match parseObjRest fuel r3 with
              | some (es, r4) =>
                match es with
                | [] => none
                | _ => some (e :: es, r4)
              | none => none
            else if c2 = cbChar then some ([e], r3)
            else none
          | [] => none
    | [] => none

/-- Parse one top-level field value: a nested flat object or a scalar. -/
def parseFieldVal (fuel : ℕ) (cs : List Char) : Option (JField × List Char) :=
  match cs with
  | c :: rest =>
    if c = obChar then (parseObjRest fuel rest).map (fun p => (JField.obj p.1, p.2))
    else (parseScalar cs).map (fun p => (JField.scalar p.1, p.2))
  | [] => none

/-- Parse the fields of the top-level object after its opening brace,
including the closing brace. -/
def parseTopRest (fuel : ℕ) (cs : List Char) : Option (JRecord × List Char) :=
  match fuel with
  | 0 => none
  | fuel + 1 =>
    match skipWs cs with
    | c :: r1 =>
      if c = cbChar then some ([], r1)
      else
        match parseJStr (skipWs cs) with
        | none => none
        | some (k, r2) =>
          match skipWs r2 with
          | c2 :: r3 =>
            if c2 = ':' then
              match parseFieldVal fuel (skipWs r3) with
              | none => none
              | some (v, r4) =>
                match skipWs r4 with
                | c3 :: r5 =>
                  if c3 = ',' then
                    match parseTopRest fuel r5 with
                    | some (fs, r6) =>
                      match fs with
                      | [] => none
                      | _ => some ((k, v) :: fs, r6)
                    | none => none
                  else if c3 = cbChar then some ([(k, v)], r5)
                  else none
                | [] => none
            else none
          | [] => none
    | [] => none

/-- Modelled from the spec: Python's `json.loads` applied to one line of the
plan store (the spec's loader parses "each non-empty line as one JSON
object").  Restricted to the record subset: the line must be one complete
top-level JSON object with nothing but whitespace after it; any other line —
in particular a truncated fragment such as a lone opening brace — raises
`json.JSONDecodeError`, modelled as `none`. -/
def json_loads (line : String) : Option JRecord :=
  match skipWs line.data with
  | c :: rest =>
    if c = obChar then
      match parseTopRest (line.data.length + 1) rest with
      | some (r, rem) =>
        match skipWs rem with
        | [] => some r
        | _ :: _ => none
      | none => none
    else none
  | [] => none

/-- Python `str.strip()` on a store line (the lines contain only spaces as
whitespace). -/
def pyStrip (s : String) : String :=
  String.mk (((s.data.dropWhile (fun c => c = ' ')).reverse.dropWhile
    (fun c => c = ' ')).reverse)

/-- The analyzer's `load_ensemble_ndjson` over the store's line sequence:
strip each line, skip empty lines, parse every other line as one JSON
record.  `none` models the `json.JSONDecodeError` that escapes the loader on
the first line that is not a complete JSON document. -/
def load_ensemble_ndjson : List String → Option (List JRecord)
  | [] => some []
  | l :: rest =>
    if pyStrip l = "" then load_ensemble_ndjson rest
    else
      match json_loads (pyStrip l) with
      | none => none
      | some r => (load_ensemble_ndjson rest).map (fun rs => r :: rs)


/-- Sanity check of the store model: a record serialized on a single line (as
NDJSON would) is recovered exactly by the loader, so the round-trip failure
below is due to the writer's multi-line layout, not to the loader model. -/
theorem json_loads_single_line_ok :
    load_ensemble_ndjson
        ["\x7b" ++ jquote "index" ++ ": 1, " ++ jquote "assignment" ++
          ": \x7b" ++ jquote "0" ++ ": 2\x7d\x7d"] =
      some [[("index", JField.scalar (.jint 1)),
        ("assignment", JField.obj [("0", JScalar.jint 2)])]] := by decide

/-- A representative plan record exactly as `stream_plans_ndjson` builds its
`obj`: a `meta` block, the ordinal `index`, the contiguity flag, the GOP seat
count, the efficiency gap and the assignment mapping. -/
def samplePlanRecord : JRecord :=
  [("meta", .obj [("seed", .jint 24), ("steps_between", .jint 100), ("thin", .jint 1)]),
   ("index", .scalar (.jint 1)),
   ("contiguous", .scalar (.jbool true)),
   ("gop_seats", .scalar (.jint 5)),
   ("efficiency_gap", .scalar (.jint 0)),
   ("assignment", .obj [("0", .jint 1), ("1", .jint 2)])]

/-- Claim C2: the writer-then-reader round trip is not the identity — it
fails outright.  `json.dump(obj, pf, indent=2)` spreads every non-empty
record over several lines (the first being a lone opening brace), while
`load_ensemble_ndjson` parses each non-empty line as one complete JSON
document: loading the store written for even a single kept plan raises
`json.JSONDecodeError` on the first line (modelled as `none`), and in
particular does not recover the written record sequence. -/
theorem ndjson_roundtrip_fails :
    load_ensemble_ndjson (stream_plans_store_lines [samplePlanRecord]) = none ∧
      load_ensemble_ndjson (stream_plans_store_lines [samplePlanRecord]) ≠
        some [samplePlanRecord] := by
  exact ⟨by decide, by decide⟩

/-- Python's `dict.get(key)`: the value bound to the key, or `None`. -/
def pyGet (r : JRecord) (k : String) : Option JField :=
  (r.find? (fun p => decide (p.1 = k))).map Prod.snd

/-- The plan record object exactly as `stream_plans_ndjson` constructs it,
with the source's keys in source order. -/
def gen_plan_record (meta : List (String × JScalar)) (index : ℤ) (contiguous : Bool)
    (gop_seats : ℤ) (eg : JScalar) (assignment : List (String × JScalar)) : JRecord :=
  [("meta", .obj meta),
   ("index", .scalar (.jint index)),
   ("contiguous", .scalar (.jbool contiguous)),
   ("gop_seats", .scalar (.jint gop_seats)),
   ("efficiency_gap", .scalar eg),
   ("assignment", .obj assignment)]

/-- Claim C9: for every record the generator can produce, the analyzer's
`main` reads the generation-time seat counts and ordinal through keys the
generator never writes — `plan.get('rep_seats_won')`,
`plan.get('dem_seats_won')` and `plan.get('plan_index')` are all `None` even
though the record carries its seat count (under `gop_seats`) and ordinal
(under `index`); only the `efficiency_gap` key matches.  The recorded seat
count therefore never appears (non-missing) in the analyzer's row. -/
theorem analyzer_reads_missing_seat_field (meta : List (String × JScalar)) (index : ℤ)
    (contiguous : Bool) (gop_seats : ℤ) (eg : JScalar)
    (assignment : List (String × JScalar)) :
    pyGet (gen_plan_record meta index contiguous gop_seats eg assignment)
        "rep_seats_won" = none ∧
      pyGet (gen_plan_record meta index contiguous gop_seats eg assignment)
        "dem_seats_won" = none ∧
      pyGet (gen_plan_record meta index contiguous gop_seats eg assignment)
        "plan_index" = none ∧
      pyGet (gen_plan_record meta index contiguous gop_seats eg assignment)
        "gop_seats" = some (.scalar (.jint gop_seats)) ∧
      pyGet (gen_plan_record meta index contiguous gop_seats eg assignment)
        "efficiency_gap" = some (.scalar eg) := by
  exact ⟨rfl, rfl, rfl, rfl, rfl⟩
